import Mathlib

/-!
# Shallow embedding of the Titanic EDA helper functions

This file embeds the non-presentation logic of the repository's four source
modules (`statistical.py`, `inferencia.py`, `transformacao.py`, `plot.py`)
into Lean 4 and proves the specification claims about them.

Modelling conventions:
* a pandas `DataFrame` is an ordered association list from column name to a
  list of cell values; a cell is `Option ℚ`, with `none` standing for a
  missing value / NaN (pandas float NaN);
* machine floats are modelled as exact rationals; comparisons against NaN are
  `false`, matching IEEE/NumPy semantics, which is captured by the `Option`
  pattern matches below;
* a Python exception is an `Except PyErr` result;
* library primitives (pandas `quantile`, sklearn `LabelEncoder`, sklearn
  `chi2`, scipy `pearsonr`/`spearmanr`, pandas `groupby(...).mean()`) are
  embedded from their documented, deterministic semantics, since the
  repository calls them directly; the non-deterministic K-means primitive is
  modelled as an opaque input constrained by the K-means fixed-point
  contract.
-/

namespace Titanic

/-- A Python exception class, as far as the embedded code distinguishes them. -/
inductive PyErr where
  | keyError
  | valueError
  | nameError
  deriving DecidableEq, Repr

/-- A dataframe cell: `some q` is the numeric value `q`, `none` is NaN/missing. -/
abbrev QVal := Option ℚ

/-- A dataframe: ordered list of (column name, cell values). -/
abbrev Df := List (String × List QVal)

/-- The dataset's column names, in order. -/
def colNames (df : Df) : List String := df.map Prod.fst

/-- `df[c]`: the values of column `c` (first matching column), if present. -/
def lookupCol (df : Df) (c : String) : Option (List QVal) :=
  (df.find? (fun p => p.1 == c)).map Prod.snd

/-- `df[c] = vs`: pandas column assignment — replaces the column in place if
the name exists, otherwise appends a new column at the end. -/
def setCol : Df → String → List QVal → Df
  | [], c, vs => [(c, vs)]
  | p :: rest, c, vs =>
      if p.1 == c then (c, vs) :: rest else p :: setCol rest c vs

/-- `series.dropna()`, in order: the present (non-NaN) values of a column.
pandas quantile and mean skip NaN entries; this extracts what they use. -/
def seriesVals (xs : List QVal) : List ℚ := xs.filterMap id

/-! ## `statistical.count_outliers` (also claims C7, C8)

```python
Q1 = df[column].quantile(0.25)
Q3 = df[column].quantile(0.75)
IQR = Q3 - Q1
lower_bound = Q1 - 1.5 * IQR
upper_bound = Q3 + 1.5 * IQR
outlier_count = ((df[column] < lower_bound) | (df[column] > upper_bound)).sum()
return outlier_count, lower_bound, upper_bound
```
-/

/-- pandas `Series.quantile(q)` with the default `interpolation='linear'`,
on an already sorted list of the non-NaN values: with `h = q*(n-1)`,
`i = ⌊h⌋`, the result is `x_i + (h - i) * (x_{i+1} - x_i)` (the second order
statistic degenerating to the first at the top index). -/
def quantileSorted (xs : List ℚ) (q : ℚ) : ℚ :=
  let n := xs.length
  let h : ℚ := q * ((n : ℚ) - 1)
  let i : ℕ := ⌊h⌋.toNat
  let lo := xs.getD i 0
  let hi := xs.getD (i + 1) lo
  lo + (h - (i : ℚ)) * (hi - lo)

/-- pandas `Series.quantile(q)`: sort the non-NaN values ascending, then
interpolate linearly between the order statistics. -/
def quantile (xs : List ℚ) (q : ℚ) : ℚ :=
  quantileSorted (xs.insertionSort (· ≤ ·)) q

/-- `v < b` as pandas evaluates it on a cell: NaN comparisons are `false`. -/
def qltB (v : QVal) (b : ℚ) : Bool :=
  match v with
  | some x => decide (x < b)
  | none => false

/-- `v > b` as pandas evaluates it on a cell: NaN comparisons are `false`. -/
def qgtB (v : QVal) (b : ℚ) : Bool :=
  match v with
  | some x => decide (b < x)
  | none => false

/-- `statistical.count_outliers(df, column)`, transcribed from the source.
An absent column is modelled as the empty series (no claim exercises the
`KeyError` path of `count_outliers`). -/
def count_outliers (df : Df) (column : String) : ℕ × ℚ × ℚ :=
  let xs := (lookupCol df column).getD []
  let vals := seriesVals xs
  let Q1 := quantile vals (1/4)
  let Q3 := quantile vals (3/4)
  let IQR := Q3 - Q1
  let lower_bound := Q1 - 3/2 * IQR
  let upper_bound := Q3 + 3/2 * IQR
  let outlier_count := (xs.map (fun v => qltB v lower_bound || qgtB v upper_bound)).count true
  (outlier_count, lower_bound, upper_bound)

/-- The body of `count_outliers` contains only reads of `df`, no column
assignment statement; in the state-passing embedding of Python mutation its
effect on the dataframe is the identity. -/
def count_outliers_effect (df : Df) (_column : String) : Df := df

/-- Spec-side predicate: the row's value lies strictly outside `[lo, hi]`. -/
def StrictlyOutside (lo hi : ℚ) (ov : QVal) : Prop :=
  ∃ v, ov = some v ∧ (v < lo ∨ hi < v)

instance (lo hi : ℚ) (ov : QVal) : Decidable (StrictlyOutside lo hi ov) :=
  match ov with
  | none => isFalse (by rintro ⟨v, h, _⟩; exact Option.noConfusion h)
  | some x =>
      decidable_of_iff (x < lo ∨ hi < x)
        ⟨fun h => ⟨x, rfl, h⟩, by rintro ⟨v, hv, h⟩; cases Option.some.inj hv; exact h⟩

/-! ### Quantile facts -/

/-- Entries of a `≤`-sorted rational list are monotone in the index. -/
lemma getD_mono_of_sorted {xs : List ℚ} (hs : xs.Sorted (· ≤ ·)) {i j : ℕ}
    (hij : i ≤ j) (hj : j < xs.length) : xs.getD i 0 ≤ xs.getD j 0 := by
  have hi : i < xs.length := lt_of_le_of_lt hij hj
  rw [List.getD_eq_getElem xs 0 hi, List.getD_eq_getElem xs 0 hj]
  rcases Nat.eq_or_lt_of_le hij with h | h
  · subst h; exact le_refl _
  · simpa using hs.rel_get_of_lt (a := ⟨i, hi⟩) (b := ⟨j, hj⟩) h

/-- Unfolded form of `quantileSorted`. -/
lemma quantileSorted_eq (xs : List ℚ) (q : ℚ) :
    quantileSorted xs q =
      xs.getD (⌊q * ((xs.length : ℚ) - 1)⌋.toNat) 0
      + (q * ((xs.length : ℚ) - 1) - ((⌊q * ((xs.length : ℚ) - 1)⌋.toNat : ℕ) : ℚ))
        * (xs.getD (⌊q * ((xs.length : ℚ) - 1)⌋.toNat + 1)
             (xs.getD (⌊q * ((xs.length : ℚ) - 1)⌋.toNat) 0)
           - xs.getD (⌊q * ((xs.length : ℚ) - 1)⌋.toNat) 0) := rfl

/-- The linearly interpolated quantile is monotone in the probability level:
the spec's `Q1 ≤ Q3` for any sorted data. -/
lemma quantileSorted_mono {xs : List ℚ} (hs : List.Sorted (· ≤ ·) xs) (hne : xs ≠ [])
    {q₁ q₂ : ℚ} (h0 : 0 ≤ q₁) (h12 : q₁ ≤ q₂) (h1 : q₂ ≤ 1) :
    quantileSorted xs q₁ ≤ quantileSorted xs q₂ := by
  have hn : 0 < xs.length := List.length_pos.mpr hne
  have hn1 : (0:ℚ) ≤ (xs.length : ℚ) - 1 := by
    have h1n : (1:ℚ) ≤ (xs.length : ℚ) := by exact_mod_cast hn
    linarith
  set a₁ : ℚ := q₁ * ((xs.length : ℚ) - 1) with ha1
  set a₂ : ℚ := q₂ * ((xs.length : ℚ) - 1) with ha2
  have h0a1 : 0 ≤ a₁ := mul_nonneg h0 hn1
  have ha12 : a₁ ≤ a₂ := mul_le_mul_of_nonneg_right h12 hn1
  have h0a2 : 0 ≤ a₂ := le_trans h0a1 ha12
  have ha2top : a₂ ≤ (xs.length : ℚ) - 1 := by
    rw [ha2]
    nlinarith
  set i₁ : ℕ := ⌊a₁⌋.toNat with hi1
  set i₂ : ℕ := ⌊a₂⌋.toNat with hi2
  have key₁ : ((i₁ : ℕ) : ℚ) = ((⌊a₁⌋ : ℤ) : ℚ) := by
    rw [hi1]; exact_mod_cast Int.toNat_of_nonneg (Int.floor_nonneg.mpr h0a1)
  have key₂ : ((i₂ : ℕ) : ℚ) = ((⌊a₂⌋ : ℤ) : ℚ) := by
    rw [hi2]; exact_mod_cast Int.toNat_of_nonneg (Int.floor_nonneg.mpr h0a2)
  have hfl_le₁ : ((i₁ : ℕ) : ℚ) ≤ a₁ := key₁ ▸ Int.floor_le a₁
  have hfl_le₂ : ((i₂ : ℕ) : ℚ) ≤ a₂ := key₂ ▸ Int.floor_le a₂
  have hlt₁ : a₁ < ((i₁ : ℕ) : ℚ) + 1 := key₁ ▸ Int.lt_floor_add_one a₁
  have hi12 : i₁ ≤ i₂ := by
    rw [hi1, hi2]; exact Int.toNat_le_toNat (Int.floor_le_floor ha12)
  have hi2n : i₂ < xs.length := by
    have hfl : ⌊a₂⌋ ≤ (xs.length : ℤ) - 1 := by
      have hcast : ((xs.length : ℚ) - 1) = (((xs.length : ℤ) - 1 : ℤ) : ℚ) := by push_cast; ring
      have := Int.floor_le_floor (α := ℚ) ha2top
      rwa [hcast, Int.floor_intCast] at this
    omega
  rw [quantileSorted_eq, quantileSorted_eq, ← ha1, ← ha2, ← hi1, ← hi2]
  set L₁ := xs.getD i₁ 0 with hL1
  set L₂ := xs.getD i₂ 0 with hL2
  set H₁ := xs.getD (i₁ + 1) L₁ with hH1
  set H₂ := xs.getD (i₂ + 1) L₂ with hH2
  have hLH₁ : L₁ ≤ H₁ := by
    by_cases hrange : i₁ + 1 < xs.length
    · have e : H₁ = xs.getD (i₁ + 1) 0 := by
        rw [hH1, List.getD_eq_getElem xs L₁ hrange, List.getD_eq_getElem xs 0 hrange]
      rw [e]; exact getD_mono_of_sorted hs (Nat.le_succ i₁) hrange
    · rw [hH1, List.getD_eq_default xs L₁ (le_of_not_lt hrange)]
  have hLH₂ : L₂ ≤ H₂ := by
    by_cases hrange : i₂ + 1 < xs.length
    · have e : H₂ = xs.getD (i₂ + 1) 0 := by
        rw [hH2, List.getD_eq_getElem xs L₂ hrange, List.getD_eq_getElem xs 0 hrange]
      rw [e]; exact getD_mono_of_sorted hs (Nat.le_succ i₂) hrange
    · rw [hH2, List.getD_eq_default xs L₂ (le_of_not_lt hrange)]
  rcases Nat.eq_or_lt_of_le hi12 with heq | hlt
  · have hL : L₁ = L₂ := by rw [hL1, hL2, heq]
    have hH : H₁ = H₂ := by rw [hH1, hH2, heq, hL]
    have hiq : ((i₁ : ℕ) : ℚ) = ((i₂ : ℕ) : ℚ) := by rw [heq]
    rw [hL, hH, hiq]
    have : (a₁ - (i₂ : ℚ)) * (H₂ - L₂) ≤ (a₂ - (i₂ : ℚ)) * (H₂ - L₂) :=
      mul_le_mul_of_nonneg_right (by linarith) (by linarith)
    linarith
  · have hrange₁ : i₁ + 1 < xs.length := lt_of_le_of_lt hlt hi2n
    have e₁ : H₁ = xs.getD (i₁ + 1) 0 := by
      rw [hH1, List.getD_eq_getElem xs L₁ hrange₁, List.getD_eq_getElem xs 0 hrange₁]
    have hv₁ : L₁ + (a₁ - (i₁ : ℚ)) * (H₁ - L₁) ≤ H₁ := by nlinarith
    have hmid : H₁ ≤ L₂ := by
      rw [e₁, hL2]; exact getD_mono_of_sorted hs hlt hi2n
    have hv₂ : L₂ ≤ L₂ + (a₂ - (i₂ : ℚ)) * (H₂ - L₂) := by nlinarith
    linarith

/-- `quantile` is monotone in the level: in particular `Q1 ≤ Q3`. -/
lemma quantile_mono (vals : List ℚ) (hne : vals ≠ []) {q₁ q₂ : ℚ}
    (h0 : 0 ≤ q₁) (h12 : q₁ ≤ q₂) (h1 : q₂ ≤ 1) :
    quantile vals q₁ ≤ quantile vals q₂ := by
  have hperm := List.perm_insertionSort (α := ℚ) (· ≤ ·) vals
  have hne' : vals.insertionSort (· ≤ ·) ≠ [] := by
    intro h
    exact hne (List.eq_nil_of_length_eq_zero (by simpa [h] using hperm.length_eq.symm))
  exact quantileSorted_mono (List.sorted_insertionSort _ vals) hne' h0 h12 h1

/-- The boolean test of the source line
`(df[column] < lower_bound) | (df[column] > upper_bound)` agrees with the
spec predicate "value strictly outside `[lo, hi]`". -/
lemma outsideB_eq (lo hi : ℚ) (ov : QVal) :
    (qltB ov lo || qgtB ov hi) = decide (StrictlyOutside lo hi ov) := by
  cases ov with
  | none => simp [qltB, qgtB, StrictlyOutside]
  | some v =>
      by_cases h1 : v < lo <;> by_cases h2 : hi < v <;>
        simp [qltB, qgtB, StrictlyOutside, h1, h2]

/-- Counting `true` under the source's boolean map equals the length of the
spec-side filter. -/
lemma count_true_eq_filter_length (lo hi : ℚ) (xs : List QVal) :
    (xs.map (fun v => qltB v lo || qgtB v hi)).count true
      = (xs.filter (fun ov => decide (StrictlyOutside lo hi ov))).length := by
  induction xs with
  | nil => simp
  | cons a t ih =>
      rw [List.map_cons, List.count_cons, List.filter_cons, outsideB_eq]
      by_cases h : StrictlyOutside lo hi a
      · simp [h, ih]
      · simp [h, ih]

/-- C1: `count_outliers` computes `Q1`/`Q3` as the linearly interpolated
25th/75th percentiles, derives `lower = Q1 - 1.5*IQR`, `upper = Q3 + 1.5*IQR`,
and returns `(n, lower, upper)` with `n` the number of rows strictly outside
`[lower, upper]`; moreover `lower ≤ Q1 ≤ Q3 ≤ upper`. -/
theorem count_outliers_correct (df : Df) (column : String) (xs : List QVal)
    (Q1 Q3 lo hi : ℚ)
    (h : lookupCol df column = some xs) (hne : seriesVals xs ≠ [])
    (hQ1 : Q1 = quantile (seriesVals xs) (1/4))
    (hQ3 : Q3 = quantile (seriesVals xs) (3/4))
    (hlo : lo = Q1 - 3/2 * (Q3 - Q1)) (hhi : hi = Q3 + 3/2 * (Q3 - Q1)) :
    count_outliers df column
      = ((xs.filter (fun ov => decide (StrictlyOutside lo hi ov))).length, lo, hi)
    ∧ lo ≤ Q1 ∧ Q1 ≤ Q3 ∧ Q3 ≤ hi := by
  have hQ13 : Q1 ≤ Q3 := by
    rw [hQ1, hQ3]
    exact quantile_mono _ hne (by norm_num) (by norm_num) (by norm_num)
  refine ⟨?_, by rw [hlo]; linarith, hQ13, by rw [hhi]; linarith⟩
  simp only [count_outliers, h, Option.getD_some]
  rw [count_true_eq_filter_length]
  rw [hlo, hhi, hQ1, hQ3]

/-- Evaluation scheme for `quantile` on concrete data. -/
lemma quantile_eval (xs sorted : List ℚ) (q : ℚ) (i : ℕ) (lo hi r : ℚ)
    (hsort : xs.insertionSort (· ≤ ·) = sorted)
    (hidx : ⌊q * ((sorted.length : ℚ) - 1)⌋.toNat = i)
    (hlo : sorted.getD i 0 = lo) (hhi : sorted.getD (i + 1) lo = hi)
    (hr : lo + (q * ((sorted.length : ℚ) - 1) - (i : ℚ)) * (hi - lo) = r) :
    quantile xs q = r := by
  rw [quantile, hsort, quantileSorted_eq, hidx, hlo, hhi, hr]

/-- `Q1 = 6` on the spec's `Age` scenario data. -/
lemma age_Q1 : quantile (seriesVals [some 5, some 6, some 7, some 8, some 100]) (1/4) = 6 := by
  have h : seriesVals [some 5, some 6, some 7, some 8, some 100] = [5, 6, 7, 8, 100] := rfl
  rw [h]
  exact quantile_eval _ [5, 6, 7, 8, 100] _ 1 6 7 6
    (by norm_num [List.insertionSort, List.orderedInsert])
    (by norm_num) rfl rfl (by norm_num)

/-- `Q3 = 8` on the spec's `Age` scenario data. -/
lemma age_Q3 : quantile (seriesVals [some 5, some 6, some 7, some 8, some 100]) (3/4) = 8 := by
  have h : seriesVals [some 5, some 6, some 7, some 8, some 100] = [5, 6, 7, 8, 100] := rfl
  rw [h]
  refine quantile_eval _ [5, 6, 7, 8, 100] _ 3 8 100 8
    (by norm_num [List.insertionSort, List.orderedInsert])
    ?_ rfl rfl (by norm_num)
  norm_num
  omega

/-- Witness for C1 on the spec's `Age` scenario. -/
theorem count_outliers_correct_witness :
    count_outliers [("Age", [some 5, some 6, some 7, some 8, some 100])] "Age"
      = (([some 5, some 6, some 7, some 8, some (100:ℚ)].filter
            (fun ov => decide (StrictlyOutside 3 11 ov))).length, 3, 11)
    ∧ (3:ℚ) ≤ 6 ∧ (6:ℚ) ≤ 8 ∧ (8:ℚ) ≤ 11 :=
  count_outliers_correct _ "Age" _ 6 8 3 11 rfl (by simp [seriesVals])
    age_Q1.symm age_Q3.symm (by norm_num) (by norm_num)

/-- C8: on `Age = [5, 6, 7, 8, 100]`, `count_outliers` yields `Q1 = 6`,
`Q3 = 8`, bounds `3` and `11`, and outlier count `1`. -/
theorem count_outliers_age_scenario :
    count_outliers [("Age", [some 5, some 6, some 7, some 8, some 100])] "Age" = (1, 3, 11)
    ∧ quantile [5, 6, 7, 8, 100] (1/4) = 6
    ∧ quantile [5, 6, 7, 8, 100] (3/4) = 8 := by
  have h : seriesVals [some 5, some 6, some 7, some 8, some 100] = [5, 6, 7, 8, 100] := rfl
  have hQ1 : quantile [(5:ℚ), 6, 7, 8, 100] (1/4) = 6 := by rw [← h]; exact age_Q1
  have hQ3 : quantile [(5:ℚ), 6, 7, 8, 100] (3/4) = 8 := by rw [← h]; exact age_Q3
  refine ⟨?_, hQ1, hQ3⟩
  simp only [count_outliers, lookupCol, List.find?, Option.getD_some]
  norm_num [h, hQ1, hQ3, qltB, qgtB, List.count_cons]

/-! ## `statistical.chi_squared_test` (claims C2, C4)

```python
df_transform = df.copy()
labelencoder = LabelEncoder()
for col in df_transform.columns:
    df_transform[col] = labelencoder.fit_transform(df_transform[col])
chi2_values, p_values = chi2(df_transform.drop(columns=[target_variable]),
                             df_transform[target_variable])
p_values_df = pd.Series(p_values, index=df_transform.drop(columns=[target_variable]).columns)
return p_values_df
```
-/

/-- A categorical dataframe for the chi-squared wrapper: columns of plain
values, no missing entries (the function's documented domain is categorical
columns plus a categorical target). -/
abbrev CDf := List (String × List ℚ)

/-- Column names of a categorical dataframe. -/
def cColNames (df : CDf) : List String := df.map Prod.fst

/-- sklearn `LabelEncoder().fit_transform(xs)`: `fit` stores the distinct
values in ascending sorted order (`numpy.unique`), `transform` maps each
value to its index in that sorted class list. -/
def labelEncode (xs : List ℚ) : List ℕ :=
  let classes := (xs.dedup).insertionSort (· ≤ ·)
  xs.map (fun v => classes.indexOf v)

/-- The distinct values of a column in first-seen order; support for the
spec-side encoding of C2. -/
def firstSeenClasses : List ℚ → List ℚ
  | [] => []
  | x :: xs => x :: (firstSeenClasses xs).filter (fun y => y ≠ x)

/-- Encoding that follows the spec's words for C2: "codes unique per column,
assignment order = first-seen value order within that column". -/
def firstSeenEncode (xs : List ℚ) : List ℕ :=
  xs.map (fun v => (firstSeenClasses xs).indexOf v)

/-- The per-column encoding pass of `chi_squared_test`: every column is
re-encoded with a fresh `fit_transform`, independently per column. -/
def encode_df (df : CDf) : List (String × List ℕ) :=
  df.map (fun p => (p.1, labelEncode p.2))

/-- In a `≤`-sorted duplicate-free list, the index of a member equals the
number of elements smaller than it. -/
lemma indexOf_sorted_nodup (l : List ℚ) (hs : l.Sorted (· ≤ ·)) (hnd : l.Nodup)
    (v : ℚ) (hv : v ∈ l) :
    List.indexOf v l = (l.filter (fun w => w < v)).length := by
  induction l with
  | nil => cases hv
  | cons a t ih =>
      rcases List.mem_cons.mp hv with heq | hvt
      · subst heq
        have hfilter : List.filter (fun w => decide (w < v)) (v :: t) = [] := by
          rw [List.filter_eq_nil_iff]
          intro w hw
          rcases List.mem_cons.mp hw with rfl | hwt
          · simp
          · simpa using not_lt.mpr (List.rel_of_sorted_cons hs w hwt)
        rw [List.indexOf_cons, hfilter]
        simp
      · have hav : a ≠ v := by
          rintro rfl
          exact (List.nodup_cons.mp hnd).1 hvt
        have halev : a < v :=
          lt_of_le_of_ne (List.rel_of_sorted_cons hs v hvt) hav
        rw [List.indexOf_cons]
        have hbeq : (a == v) = false := by simpa using hav
        rw [hbeq]
        have ht := ih (List.sorted_cons.mp hs).2 (List.nodup_cons.mp hnd).2 hvt
        simp [List.filter_cons, halev, ht]

/-- The class list built by `LabelEncoder.fit` is sorted, duplicate-free,
and carries exactly the column's values. -/
lemma classes_facts (xs : List ℚ) :
    ((xs.dedup).insertionSort (· ≤ ·)).Sorted (· ≤ ·)
    ∧ ((xs.dedup).insertionSort (· ≤ ·)).Nodup
    ∧ (∀ v, v ∈ (xs.dedup).insertionSort (· ≤ ·) ↔ v ∈ xs) := by
  refine ⟨List.sorted_insertionSort _ _, ?_, ?_⟩
  · exact ((List.perm_insertionSort _ _).nodup_iff).mpr (List.nodup_dedup xs)
  · intro v
    rw [(List.perm_insertionSort _ _).mem_iff, List.mem_dedup]

/-- C2 (amended): inside `chi_squared_test`, every column is encoded
independently to contiguous integer codes `0..k-1`, the code of each value
being its rank in the ascending order of the column's distinct values —
not its first-seen rank. -/
theorem chi_squared_test_encoding (df : CDf) (c : String) (xs : List ℚ)
    (h : (c, xs) ∈ df) :
    (c, labelEncode xs) ∈ encode_df df
    ∧ labelEncode xs = xs.map (fun v => ((xs.dedup).filter (fun w => w < v)).length)
    ∧ (∀ k : ℕ, k ∈ labelEncode xs ↔ k < xs.dedup.length) := by
  obtain ⟨hsort, hnd, hmem⟩ := classes_facts xs
  have hperm := List.perm_insertionSort (α := ℚ) (· ≤ ·) xs.dedup
  constructor
  · exact List.mem_map.mpr ⟨(c, xs), h, rfl⟩
  constructor
  · rw [labelEncode]
    apply List.map_congr_left
    intro v hv
    rw [indexOf_sorted_nodup _ hsort hnd v ((hmem v).mpr hv)]
    exact (hperm.filter _).length_eq
  · intro k
    rw [labelEncode]
    constructor
    · intro hk
      obtain ⟨v, hv, hvk⟩ := List.mem_map.mp hk
      have hvc : v ∈ (xs.dedup).insertionSort (· ≤ ·) := (hmem v).mpr hv
      have := List.indexOf_lt_length.mpr hvc
      rw [hvk] at this
      exact this.trans_eq hperm.length_eq
    · intro hk
      have hk' : k < ((xs.dedup).insertionSort (· ≤ ·)).length := by
        rw [hperm.length_eq]; exact hk
      set v := ((xs.dedup).insertionSort (· ≤ ·)).get ⟨k, hk'⟩ with hvdef
      have hvc : v ∈ (xs.dedup).insertionSort (· ≤ ·) := by
        rw [hvdef]; exact List.get_mem _ _ _
      refine List.mem_map.mpr ⟨v, (hmem v).mp hvc, ?_⟩
      have := List.get_indexOf hnd ⟨k, hk'⟩
      simpa [hvdef] using this

/-- Witness for C2 (amended) on a concrete column. -/
theorem chi_squared_test_encoding_witness :
    ("c", labelEncode [1, 0]) ∈ encode_df [("c", [(1:ℚ), 0])]
    ∧ labelEncode [(1:ℚ), 0]
        = [(1:ℚ), 0].map (fun v => ((([(1:ℚ), 0]).dedup).filter (fun w => w < v)).length)
    ∧ (∀ k : ℕ, k ∈ labelEncode [(1:ℚ), 0] ↔ k < ([(1:ℚ), 0]).dedup.length) :=
  chi_squared_test_encoding [("c", [1, 0])] "c" [1, 0] (by simp)

/-- C2 counterexample: on the column `[1, 0]`, `chi_squared_test`'s encoding
pass assigns `1 ↦ 1, 0 ↦ 0` (ascending sorted order of the distinct values),
while first-seen-order encoding would assign `1 ↦ 0, 0 ↦ 1`. -/
theorem chi2_encoding_counterexample :
    encode_df [("c", [1, 0])] = [("c", [1, 0])]
    ∧ firstSeenEncode [(1:ℚ), 0] = [0, 1]
    ∧ encode_df [("c", [1, 0])] ≠ [("c", firstSeenEncode [(1:ℚ), 0])] := by
  have h1 : labelEncode [(1:ℚ), 0] = [1, 0] := by
    norm_num [labelEncode, List.insertionSort, List.orderedInsert, List.indexOf_cons,
      Bool.cond_eq_ite, beq_iff_eq]
  have h2 : firstSeenEncode [(1:ℚ), 0] = [0, 1] := by
    norm_num [firstSeenEncode, firstSeenClasses, List.indexOf_cons, Bool.cond_eq_ite,
      beq_iff_eq]
  refine ⟨by simp [encode_df, h1], h2, ?_⟩
  simp [encode_df, h1, h2]

/-! ### The chi-squared statistic of sklearn `chi2` -/

/-- NumPy elementwise division as it occurs in sklearn `_chisquare`: there a
zero denominator always comes with a zero numerator (a zero feature count or
class probability zeroes the observed count too), and `0.0/0.0` is NaN. -/
def qdivNaN (a b : ℚ) : Option ℚ := if b = 0 then none else some (a / b)

/-- NaN-propagating sum (NumPy `sum` over a float array with NaN entries). -/
def osum : List (Option ℚ) → Option ℚ
  | [] => some 0
  | x :: xs => x.bind (fun a => (osum xs).map (fun s => a + s))

/-- The classes stored by `LabelBinarizer.fit` on the encoded target:
distinct values in ascending order. -/
def sortedClasses (ys : List ℕ) : List ℕ := (ys.dedup).insertionSort (· ≤ ·)

/-- One row of the binarized target matrix `Y` in sklearn `chi2`: one-hot
over the sorted classes for ≥ 2 classes (with exactly 2 classes,
`LabelBinarizer` emits the indicator of the larger class and `chi2` appends
its complement — the same one-hot matrix); with a single class,
`label_binarize` emits a zero column whose complement is prepended. -/
def yRow (ys : List ℕ) (y : ℕ) : List ℚ :=
  if (sortedClasses ys).length = 1 then [1, 0]
  else (sortedClasses ys).map (fun c => if y = c then (1:ℚ) else 0)

/-- Number of columns of `Y` (the `k` whose `k - 1` is the degrees of
freedom of the statistic). -/
def yCols (ys : List ℕ) : ℕ :=
  if (sortedClasses ys).length = 1 then 2 else (sortedClasses ys).length

/-- `observed[c] = Σ_i Y[i][c] * x_i` (sklearn `chi2`: `Y.T @ X`). -/
def observedCount (ys : List ℕ) (x : List ℚ) (c : ℕ) : ℚ :=
  ((ys.zip x).map (fun p => (yRow ys p.1).getD c 0 * p.2)).sum

/-- `Σ_i Y[i][c]`, the class count behind `class_prob = Y.mean(axis=0)`. -/
def classCount (ys : List ℕ) (c : ℕ) : ℚ :=
  (ys.map (fun y => (yRow ys y).getD c 0)).sum

/-- The chi-squared statistic of one encoded feature column against the
encoded target, following sklearn `chi2`/`_chisquare`:
`expected[c] = class_prob[c] * Σx`, `chisq = Σ_c (obs-exp)²/exp`, with NaN
(`none`) from `0/0` whenever an expected count is zero (constant feature) or
the sample is empty.  The returned p-value is `chdtrc(k-1, chisq)`, a real
survival function that is NaN exactly on NaN statistics; the series entry is
therefore modelled by the statistic itself, `none` meaning a NaN p-value. -/
def chisqStat (ys : List ℕ) (x : List ℚ) : Option ℚ :=
  osum ((List.range (yCols ys)).map (fun c =>
    (qdivNaN (classCount ys c) ((ys.length : ℚ))).bind (fun prob =>
      qdivNaN ((observedCount ys x c - prob * x.sum)^2) (prob * x.sum))))

/-- `statistical.chi_squared_test(df, target_variable)`, transcribed from the
source: copy and label-encode every column, drop the target (`KeyError` when
the name is absent), validate the feature matrix as sklearn `chi2`'s
`check_array` does — `ValueError` when no non-target column remains
(`ensure_min_features`) or the dataframe has no rows (`ensure_min_samples`;
the model reads the row count off the first feature column, all pandas
columns having one common length) — then return one p-value per remaining
column, indexed by name. -/
def chi_squared_test (df : CDf) (target_variable : String) :
    Except PyErr (List (String × Option ℚ)) :=
  if target_variable ∈ cColNames df then
    if ((encode_df df).filter (fun p => p.1 ≠ target_variable)).length = 0
        ∨ (((encode_df df).filter (fun p => p.1 ≠ target_variable)).head?.map
            (fun p => p.2.length)) = some 0
    then .error .valueError
    else
      .ok (((encode_df df).filter (fun p => p.1 ≠ target_variable)).map
        (fun p => (p.1, chisqStat
          ((((encode_df df).find? (fun p => p.1 == target_variable)).map Prod.snd).getD [])
          (p.2.map (fun a => (a : ℚ))))))
  else .error .keyError

/-- Projecting names out of a filtered association list. -/
lemma map_fst_filter_ne {β : Type} (l : List (String × β)) (t : String) :
    ((l.filter (fun p => p.1 ≠ t)).map Prod.fst) = (l.map Prod.fst).filter (fun c => c ≠ t) := by
  induction l with
  | nil => rfl
  | cons a l ih =>
      by_cases h : a.1 = t
      · simp only [List.map_cons, List.filter_cons, h]
        simpa using ih
      · simp only [List.map_cons, List.filter_cons]
        simp [h]
        simpa using ih

/-- The encoding pass keeps the column names. -/
lemma encode_df_names (df : CDf) : (encode_df df).map Prod.fst = cColNames df := by
  simp [encode_df, cColNames, List.map_map, Function.comp]

/-- The encoding pass keeps the length of every column. -/
lemma labelEncode_length (xs : List ℚ) : (labelEncode xs).length = xs.length := by
  simp [labelEncode]

/-- Dropping the target commutes with the encoding pass. -/
lemma encode_df_filter (df : CDf) (t : String) :
    (encode_df df).filter (fun p => p.1 ≠ t) = encode_df (df.filter (fun p => p.1 ≠ t)) := by
  induction df with
  | nil => rfl
  | cons a l ih =>
      by_cases h : a.1 = t
      · simp only [encode_df, List.map_cons, List.filter_cons, h]
        simp
        simpa [encode_df] using ih
      · simp only [encode_df, List.map_cons, List.filter_cons]
        simp [h]
        simpa [encode_df] using ih

/-- C4 (amended): `chi_squared_test` raises `KeyError` (from `drop`) exactly
when the target column is absent, and `ValueError` (from sklearn `chi2`'s
input validation) exactly when no non-target column remains or the dataframe
has no rows; a column with fewer than 2 distinct values does not make it
fail; on success it returns one (possibly NaN) p-value entry per non-target
column, in column order. -/
theorem chi_squared_test_error_iff (df : CDf) (target : String) :
    (chi_squared_test df target = .error .keyError ↔ target ∉ cColNames df)
    ∧ (target ∈ cColNames df →
        (chi_squared_test df target = .error .valueError
          ↔ (df.filter (fun p => p.1 ≠ target) = []
              ∨ ((df.filter (fun p => p.1 ≠ target)).head?.map (fun p => p.2.length))
                  = some 0)))
    ∧ ∀ res, chi_squared_test df target = .ok res →
        res.map Prod.fst = (cColNames df).filter (fun c => c ≠ target) := by
  have hfe := encode_df_filter df target
  have hlen : (((encode_df df).filter (fun p => p.1 ≠ target)).length = 0)
      ↔ df.filter (fun p => p.1 ≠ target) = [] := by
    rw [hfe]
    simp [encode_df, List.length_eq_zero]
  have hhead : ((encode_df df).filter (fun p => p.1 ≠ target)).head?.map (fun p => p.2.length)
      = (df.filter (fun p => p.1 ≠ target)).head?.map (fun p => p.2.length) := by
    rcases hcase : df.filter (fun p => p.1 ≠ target) with _ | ⟨q, qs⟩
    · rw [hfe, hcase]; rfl
    · rw [hfe, hcase]
      simp [encode_df, labelEncode_length]
  by_cases hmem : target ∈ cColNames df
  · by_cases herr : ((encode_df df).filter (fun p => p.1 ≠ target)).length = 0
        ∨ ((encode_df df).filter (fun p => p.1 ≠ target)).head?.map (fun p => p.2.length)
            = some 0
    · have hval : chi_squared_test df target = .error .valueError := by
        rw [chi_squared_test, if_pos hmem, if_pos herr]
      have herr' : df.filter (fun p => p.1 ≠ target) = []
          ∨ (df.filter (fun p => p.1 ≠ target)).head?.map (fun p => p.2.length) = some 0 := by
        rcases herr with h | h
        · exact Or.inl (hlen.mp h)
        · exact Or.inr (hhead ▸ h)
      exact ⟨by simp [hval, hmem], fun _ => ⟨fun _ => herr', fun _ => hval⟩,
        fun res hres => by rw [hval] at hres; cases hres⟩
    · have hok : chi_squared_test df target
          = .ok (((encode_df df).filter (fun p => p.1 ≠ target)).map
            (fun p => (p.1, chisqStat
              ((((encode_df df).find? (fun p => p.1 == target)).map Prod.snd).getD [])
              (p.2.map (fun a => (a : ℚ)))))) := by
        rw [chi_squared_test, if_pos hmem, if_neg herr]
      have hnerr' : ¬(df.filter (fun p => p.1 ≠ target) = []
          ∨ (df.filter (fun p => p.1 ≠ target)).head?.map (fun p => p.2.length) = some 0) := by
        rw [← hlen, ← hhead]
        exact herr
      refine ⟨by simp [hok, hmem], fun _ => iff_of_false (by simp [hok]) hnerr',
        fun res hres => ?_⟩
      rw [hok] at hres
      cases Except.ok.inj hres
      rw [List.map_map]
      have hcomp : (Prod.fst ∘ fun p : String × List ℕ =>
          (p.1, chisqStat
            ((((encode_df df).find? (fun p => p.1 == target)).map Prod.snd).getD [])
            (p.2.map (fun a => (a : ℚ))))) = Prod.fst := rfl
      rw [hcomp, map_fst_filter_ne, encode_df_names]
  · have hval : chi_squared_test df target = .error .keyError := by
      rw [chi_squared_test, if_neg hmem]
    exact ⟨by simp [hval, hmem], fun hm => absurd hm hmem,
      fun res hres => by rw [hval] at hres; cases hres⟩

/-- Witness for C4 (amended), exercising the validation error on a dataset
holding only the target column (zero features after the drop). -/
theorem chi_squared_test_error_iff_witness :
    chi_squared_test [("t", [(0:ℚ), 1])] "t" = .error .valueError :=
  ((chi_squared_test_error_iff [("t", [0, 1])] "t").2.1 (by simp [cColNames])).mpr
    (Or.inl (by simp))

/-- C4 counterexample: on a dataset whose column `"a"` is constant (a single
distinct value), `chi_squared_test` does not fail — it succeeds and returns a
NaN p-value for that column. -/
theorem chi_squared_test_constant_column_counterexample :
    ([(0:ℚ), 0].dedup.length = 1)
    ∧ chi_squared_test [("a", [0, 0]), ("t", [0, 1])] "t" = .ok [("a", none)] := by
  have hsc : sortedClasses [0, 1] = [0, 1] := by decide
  have hrange : List.range (yCols [0, 1]) = [0, 1] := by
    simp [yCols, hsc]
    decide
  have hy0 : yRow [0, 1] 0 = [1, 0] := by norm_num [yRow, hsc]
  have hy1 : yRow [0, 1] 1 = [0, 1] := by norm_num [yRow, hsc]
  have hcc0 : classCount [0, 1] 0 = 1 := by norm_num [classCount, hy0, hy1]
  have hcc1 : classCount [0, 1] 1 = 1 := by norm_num [classCount, hy0, hy1]
  have hob : ∀ c, observedCount [0, 1] [0, 0] c = 0 := by
    intro c
    norm_num [observedCount, List.zip]
  have hstat : chisqStat [0, 1] [(0:ℚ), 0] = none := by
    rw [chisqStat, hrange]
    simp only [List.map_cons, List.map_nil, hcc0, hcc1, hob]
    norm_num [qdivNaN, osum]
  have henc : encode_df [("a", [0, 0]), ("t", [0, 1])] = [("a", [0, 0]), ("t", [0, 1])] := by
    have h00 : labelEncode [(0:ℚ), 0] = [0, 0] := by
      norm_num [labelEncode, List.insertionSort, List.orderedInsert, List.indexOf_cons,
        Bool.cond_eq_ite, beq_iff_eq]
    have h01 : labelEncode [(0:ℚ), 1] = [0, 1] := by
      norm_num [labelEncode, List.insertionSort, List.orderedInsert, List.indexOf_cons,
        Bool.cond_eq_ite, beq_iff_eq]
    simp [encode_df, h00, h01]
  refine ⟨by norm_num, ?_⟩
  rw [chi_squared_test, if_pos (by simp [cColNames]), henc, if_neg (by decide)]
  simp [hstat]

/-! ## `transformacao.categorize_col` (claim C5)

```python
bins = [-np.inf] + thresholds.tolist() + [np.inf]
labels = [f"{bins[i]}-{bins[i+1]}" for i in range(len(bins)-1)]
return pd.cut(df[col], bins=bins, labels=labels, right=False)
```
-/

/-- A bin edge of `categorize_col`: `-np.inf`, a finite threshold, `np.inf`.
Thresholds are taken integral, as in the spec's scenarios, so that the
Python f-string renders them like `toString`. -/
inductive BinEdge where
  | ninf
  | fin (t : ℤ)
  | pinf
  deriving DecidableEq, Repr

/-- The Python f-string rendering of a bin edge (`str(-np.inf) = "-inf"`,
`str(np.inf) = "inf"`, integers as decimal literals). -/
def showEdge : BinEdge → String
  | .ninf => "-inf"
  | .fin t => toString t
  | .pinf => "inf"

/-- `left ≤ v` (the inclusive left edge test of a `right=False` bin). -/
def edgeLE : BinEdge → ℚ → Bool
  | .ninf, _ => true
  | .fin t, v => decide ((t : ℚ) ≤ v)
  | .pinf, _ => false

/-- `v < right` (the exclusive right edge test of a `right=False` bin). -/
def ltEdge : ℚ → BinEdge → Bool
  | _, .ninf => false
  | v, .fin t => decide (v < (t : ℚ))
  | _, .pinf => true

/-- `bins = [-np.inf] + thresholds + [np.inf]`. -/
def binsOf (ts : List ℤ) : List BinEdge := .ninf :: ts.map .fin ++ [.pinf]

/-- `labels = [f"{bins[i]}-{bins[i+1]}" for i in range(len(bins)-1)]`. -/
def labelsOf (bs : List BinEdge) : List String :=
  List.zipWith (fun l r => showEdge l ++ "-" ++ showEdge r) bs bs.tail

/-- `pd.cut(..., right=False)` bin search: the index of the first
consecutive edge pair `[l, r)` containing the value, if any. -/
def cutIdx : List BinEdge → ℚ → Option ℕ
  | l :: r :: rest, v =>
      if edgeLE l v && ltEdge v r then some 0
      else (cutIdx (r :: rest) v).map (· + 1)
  | _, _ => none

/-- `categorize_col` on one cell value: the label of its bin. -/
def categorize_val (ts : List ℤ) (v : ℚ) : Option String :=
  (cutIdx (binsOf ts) v).bind (fun i => (labelsOf (binsOf ts)).get? i)

/-- `transformacao.categorize_col(df, col, thresholds)`: the per-row label
series (`pd.cut` leaves NaN rows as NaN labels). -/
def categorize_col (df : Df) (col : String) (ts : List ℤ) : List (Option String) :=
  ((lookupCol df col).getD []).map (fun ov => ov.bind (categorize_val ts))

/-- The edge at position `i` of the bin list (out-of-range positions read as
`+inf`, which never occurs for `i ≤ ts.length + 1`). -/
def edgeAt (ts : List ℤ) (i : ℕ) : BinEdge := (binsOf ts).getD i .pinf

/-- The bin index `pd.cut` must produce for `v`: the number of thresholds
that are `≤ v`. -/
def cutRank (ts : List ℤ) (v : ℚ) : ℕ :=
  (ts.filter (fun (t : ℤ) => (t : ℚ) ≤ v)).length

/-- The half-open-bin membership predicate of the spec: bin `i` of the
threshold list contains `v` (left edge inclusive, right edge exclusive). -/
def BinContains (ts : List ℤ) (i : ℕ) (v : ℚ) : Prop :=
  edgeLE (edgeAt ts i) v = true ∧ ltEdge v (edgeAt ts (i + 1)) = true ∧ i ≤ ts.length

lemma edgeAt_zero (ts : List ℤ) : edgeAt ts 0 = .ninf := rfl

lemma edgeAt_cons_one (t : ℤ) (ts : List ℤ) : edgeAt (t :: ts) 1 = .fin t := rfl

lemma edgeAt_cons_succ_succ (t : ℤ) (ts : List ℤ) (j : ℕ) :
    edgeAt (t :: ts) (j + 2) = edgeAt ts (j + 1) := rfl

/-- Inner bin edges are the thresholds themselves. -/
lemma edgeAt_fin (ts : List ℤ) (j : ℕ) (h : j < ts.length) :
    edgeAt ts (j + 1) = .fin ts[j] := by
  rw [edgeAt, binsOf, List.cons_append, List.getD_cons_succ]
  have hlt : j < (ts.map BinEdge.fin ++ [BinEdge.pinf]).length := by
    simp only [List.length_append, List.length_map, List.length_singleton]
    omega
  have hmap : j < (ts.map BinEdge.fin).length := by simpa using h
  rw [List.getD_eq_getElem _ _ hlt, List.getElem_append_left hmap, List.getElem_map]

/-- The top edge of the last bin is `+inf`. -/
lemma edgeAt_top (ts : List ℤ) : edgeAt ts (ts.length + 1) = .pinf := by
  induction ts with
  | nil => rfl
  | cons t ts ih =>
      have : ts.length + 1 + 1 = ts.length + 2 := rfl
      rw [List.length_cons, edgeAt_cons_succ_succ]
      exact ih

/-- The left edge of the last bin is the last threshold. -/
lemma edgeAt_length (ts : List ℤ) (h : ts ≠ []) :
    edgeAt ts ts.length = .fin (ts.getLast h) := by
  induction ts with
  | nil => exact absurd rfl h
  | cons t ts ih =>
      cases ts with
      | nil => rfl
      | cons u us =>
          rw [List.getLast_cons (by simp : (u :: us) ≠ [])]
          have hlen : (t :: u :: us).length = (u :: us).length + 1 := rfl
          rw [hlen]
          have hsh : edgeAt (t :: u :: us) ((u :: us).length - 1 + 2)
              = edgeAt (u :: us) ((u :: us).length - 1 + 1) := edgeAt_cons_succ_succ _ _ _
          have harith : (u :: us).length + 1 = (u :: us).length - 1 + 2 := by
            simp only [List.length_cons]; omega
          have harith2 : (u :: us).length - 1 + 1 = (u :: us).length := by
            simp only [List.length_cons]; omega
          rw [harith, hsh, harith2]
          exact ih (by simp)

/-- Every element of a strictly ascending list is at most its last element. -/
lemma mem_le_getLast (ts : List ℤ) (hp : ts.Pairwise (· < ·)) (h : ts ≠ []) :
    ∀ a ∈ ts, a ≤ ts.getLast h := by
  induction ts with
  | nil => exact absurd rfl h
  | cons t ts ih =>
      intro a ha
      cases ts with
      | nil =>
          rcases List.mem_cons.mp ha with rfl | hmem
          · exact le_refl _
          · cases hmem
      | cons u us =>
          rw [List.getLast_cons (by simp : (u :: us) ≠ [])]
          rcases List.mem_cons.mp ha with rfl | hmem
          · exact le_of_lt ((List.pairwise_cons.mp hp).1 _ (List.getLast_mem _))
          · exact ih (List.pairwise_cons.mp hp).2 (by simp) a hmem

/-- Peeling one threshold off the bin rank. -/
lemma cutRank_cons (t : ℤ) (ts : List ℤ) (v : ℚ) (hp : (t :: ts).Pairwise (· < ·)) :
    cutRank (t :: ts) v = if (t : ℚ) ≤ v then cutRank ts v + 1 else 0 := by
  by_cases h : (t : ℚ) ≤ v
  · simp [cutRank, List.filter_cons, h]
  · have hnil : List.filter (fun (a : ℤ) => decide ((a : ℚ) ≤ v)) ts = [] := by
      rw [List.filter_eq_nil_iff]
      intro a ha
      have hta : t < a := (List.pairwise_cons.mp hp).1 a ha
      have : v < (a : ℚ) := lt_trans (not_le.mp h) (by exact_mod_cast hta)
      simp [not_le.mpr this]
    simp [cutRank, List.filter_cons, h, hnil]

/-- Peeling one threshold off the containment predicate. -/
lemma binContains_cons_succ (t : ℤ) (ts : List ℤ) (j : ℕ) (v : ℚ)
    (hp : (t :: ts).Pairwise (· < ·)) :
    BinContains (t :: ts) (j + 1) v ↔ ((t : ℚ) ≤ v ∧ BinContains ts j v) := by
  cases j with
  | zero =>
      have h2 : edgeAt (t :: ts) 2 = edgeAt ts 1 := edgeAt_cons_succ_succ t ts 0
      constructor
      · rintro ⟨h1, hlt, -⟩
        rw [edgeAt_cons_one] at h1
        rw [h2] at hlt
        exact ⟨by simpa [edgeLE] using h1, by simp [BinContains, edgeAt_zero, edgeLE], hlt,
          Nat.zero_le _⟩
      · rintro ⟨htv, -, hlt, -⟩
        refine ⟨?_, ?_, by simp⟩
        · rw [edgeAt_cons_one]; simpa [edgeLE] using htv
        · rw [h2]; exact hlt
  | succ m =>
      have hA : edgeAt (t :: ts) (m + 2) = edgeAt ts (m + 1) := edgeAt_cons_succ_succ t ts m
      have hB : edgeAt (t :: ts) (m + 3) = edgeAt ts (m + 2) := edgeAt_cons_succ_succ t ts (m + 1)
      constructor
      · rintro ⟨h1, hlt, hlen⟩
        rw [hA] at h1
        rw [show m + 1 + 1 + 1 = m + 3 from rfl, hB] at hlt
        have hlen' : m + 1 ≤ ts.length := by simpa using hlen
        have hm : m < ts.length := hlen'
        have h1' := h1
        rw [edgeAt_fin ts m hm] at h1'
        have htmv : ((ts[m] : ℤ) : ℚ) ≤ v := by simpa [edgeLE] using h1'
        have htm : t < ts[m] := (List.pairwise_cons.mp hp).1 _ (List.getElem_mem hm)
        have htv : (t : ℚ) ≤ v := le_trans (by exact_mod_cast htm.le) htmv
        exact ⟨htv, h1, hlt, hlen'⟩
      · rintro ⟨-, h1, hlt, hlen⟩
        refine ⟨by rw [hA]; exact h1, ?_, by simpa using hlen⟩
        rw [show m + 1 + 1 + 1 = m + 3 from rfl, hB]
        exact hlt

/-- A bin contains `v` exactly when its index is the `cutRank`: bins are
pairwise disjoint and jointly cover all of ℚ. -/
lemma binContains_iff_rank (ts : List ℤ) (v : ℚ) :
    ∀ i, ts.Pairwise (· < ·) → (BinContains ts i v ↔ i = cutRank ts v) := by
  induction ts with
  | nil =>
      intro i _
      cases i with
      | zero =>
          simp [BinContains, cutRank, edgeAt_zero, edgeLE,
            show edgeAt [] 1 = .pinf from rfl, ltEdge]
      | succ j =>
          constructor
          · rintro ⟨-, -, h3⟩; simp at h3
          · intro h; rw [cutRank] at h; simp at h
  | cons t ts ih =>
      intro i hp
      cases i with
      | zero =>
          rw [cutRank_cons t ts v hp]
          constructor
          · rintro ⟨-, hlt, -⟩
            rw [edgeAt_cons_one] at hlt
            have hv : v < (t : ℚ) := by simpa [ltEdge] using hlt
            rw [if_neg (not_le.mpr hv)]
          · intro h
            by_cases htv : (t : ℚ) ≤ v
            · rw [if_pos htv] at h; cases h
            · refine ⟨by simp [edgeAt_zero, edgeLE], ?_, Nat.zero_le _⟩
              rw [edgeAt_cons_one]
              simpa [ltEdge] using not_le.mp htv
      | succ j =>
          rw [binContains_cons_succ t ts j v hp, cutRank_cons t ts v hp]
          by_cases htv : (t : ℚ) ≤ v
          · rw [if_pos htv]
            constructor
            · rintro ⟨-, hbc⟩
              have := (ih j (List.pairwise_cons.mp hp).2).mp hbc
              omega
            · intro h
              exact ⟨htv, (ih j (List.pairwise_cons.mp hp).2).mpr (by omega)⟩
          · rw [if_neg htv]
            constructor
            · rintro ⟨htv', -⟩; exact absurd htv' htv
            · intro h; cases h

/-- `pd.cut`'s search over the extended bin list finds exactly the
`cutRank`-th bin. -/
lemma cutIdx_core (ts : List ℤ) (v : ℚ) :
    ∀ e : BinEdge, edgeLE e v = true → ts.Pairwise (· < ·) →
      cutIdx (e :: (ts.map .fin ++ [.pinf])) v = some (cutRank ts v) := by
  induction ts with
  | nil =>
      intro e he _
      simp [cutIdx, he, ltEdge, cutRank]
  | cons t ts ih =>
      intro e he hp
      have hstep : e :: ((t :: ts).map BinEdge.fin ++ [BinEdge.pinf])
          = e :: .fin t :: (ts.map .fin ++ [.pinf]) := by simp
      rw [hstep, cutIdx, cutRank_cons t ts v hp]
      by_cases hv : v < (t : ℚ)
      · rw [if_pos (by simp [he, ltEdge, hv]), if_neg (not_le.mpr hv)]
      · have htv : (t : ℚ) ≤ v := not_lt.mp hv
        rw [if_neg (by simp [ltEdge, hv]), if_pos htv,
          ih (.fin t) (by simp [edgeLE, htv]) (List.pairwise_cons.mp hp).2]
        rfl

/-- `cutIdx` over the full bin list. -/
lemma cutIdx_binsOf (ts : List ℤ) (v : ℚ) (hp : ts.Pairwise (· < ·)) :
    cutIdx (binsOf ts) v = some (cutRank ts v) := by
  rw [binsOf, List.cons_append]
  exact cutIdx_core ts v .ninf rfl hp

/-- Labels are built from consecutive bin edges. -/
lemma labelsOf_get? (bs : List BinEdge) :
    ∀ i : ℕ, (labelsOf bs).get? i =
      match bs.get? i, bs.get? (i + 1) with
      | some l, some r => some (showEdge l ++ "-" ++ showEdge r)
      | _, _ => none := by
  induction bs with
  | nil => intro i; cases i <;> simp [labelsOf]
  | cons b bs ih =>
      intro i
      cases bs with
      | nil => cases i with
          | zero => simp [labelsOf]
          | succ j => cases j <;> simp [labelsOf]
      | cons c cs =>
          have hlab : labelsOf (b :: c :: cs)
              = (showEdge b ++ "-" ++ showEdge c) :: labelsOf (c :: cs) := rfl
          cases i with
          | zero => simp [hlab]
          | succ j =>
              rw [hlab]
              simp only [List.get?_cons_succ]
              exact ih j

/-- In-range positions of the bin list resolve to `edgeAt`. -/
lemma binsOf_get? (ts : List ℤ) (i : ℕ) (h : i ≤ ts.length + 1) :
    (binsOf ts).get? i = some (edgeAt ts i) := by
  have hlen : i < (binsOf ts).length := by
    simp only [binsOf, List.length_cons, List.length_append, List.length_map,
      List.length_singleton]
    omega
  rw [edgeAt, List.getD_eq_getElem _ _ hlen, List.get?_eq_getElem?,
    List.getElem?_eq_getElem hlen]

/-- C5: for strictly ascending thresholds, `categorize_col` assigns every
value the label `"{left}-{right}"` of the unique half-open bin (left edge
inclusive, right edge exclusive) containing it: values below `t0` get
`"-inf-t0"`, values at or above the last threshold get `"t_last-inf"`, no
value is left unlabeled, and with thresholds `[10, 20]` the value `15` gets
`"10-20"` and `25` gets `"20-inf"`. -/
theorem categorize_col_assigns_unique_bins (ts : List ℤ)
    (hsort : List.Chain' (· < ·) ts) (v : ℚ) :
    (∃ i, BinContains ts i v ∧ (∀ j, BinContains ts j v → j = i)
       ∧ categorize_val ts v
           = some (showEdge (edgeAt ts i) ++ "-" ++ showEdge (edgeAt ts (i + 1))))
    ∧ (∀ t0 rest, ts = t0 :: rest → v < (t0 : ℚ) →
        categorize_val ts v = some ("-inf-" ++ toString t0))
    ∧ (∀ (h : ts ≠ []), ((ts.getLast h : ℤ) : ℚ) ≤ v →
        categorize_val ts v = some (toString (ts.getLast h) ++ "-inf"))
    ∧ (∀ df col, categorize_col df col ts
        = ((lookupCol df col).getD []).map (fun ov => ov.bind (categorize_val ts)))
    ∧ categorize_val [10, 20] 15 = some "10-20"
    ∧ categorize_val [10, 20] 25 = some "20-inf" := by
  have hp : ts.Pairwise (· < ·) := List.chain'_iff_pairwise.mp hsort
  have hrank_le : cutRank ts v ≤ ts.length := List.length_filter_le _ _
  have hcat : categorize_val ts v
      = some (showEdge (edgeAt ts (cutRank ts v)) ++ "-"
          ++ showEdge (edgeAt ts (cutRank ts v + 1))) := by
    rw [categorize_val, cutIdx_binsOf ts v hp, Option.some_bind, labelsOf_get?,
      binsOf_get? ts _ (by omega), binsOf_get? ts _ (by omega)]
  have h15 : cutIdx (binsOf [10, 20]) 15 = some 1 := by
    norm_num [cutIdx, binsOf, edgeLE, ltEdge]
  have h25 : cutIdx (binsOf [10, 20]) 25 = some 2 := by
    norm_num [cutIdx, binsOf, edgeLE, ltEdge]
  refine ⟨⟨cutRank ts v, (binContains_iff_rank ts v _ hp).mpr rfl,
      fun j hj => (binContains_iff_rank ts v j hp).mp hj, hcat⟩, ?_, ?_,
      fun df col => rfl, ?_, ?_⟩
  · intro t0 rest hts hv
    subst hts
    have hrank0 : cutRank (t0 :: rest) v = 0 := by
      rw [cutRank_cons _ _ _ hp, if_neg (not_le.mpr hv)]
    rw [hcat, hrank0, edgeAt_zero, edgeAt_cons_one]
    rfl
  · intro h hle
    have hne : ts ≠ [] := h
    have hrankfull : cutRank ts v = ts.length := by
      rw [cutRank, List.filter_eq_self.mpr ?_, ]
      intro a ha
      have hlast := mem_le_getLast ts hp h a ha
      have : (a : ℚ) ≤ v := le_trans (by exact_mod_cast hlast) hle
      simpa using this
    rw [hcat, hrankfull, edgeAt_length ts h, edgeAt_top]
    rw [show showEdge (.fin (ts.getLast h)) = toString (ts.getLast h) from rfl,
      show showEdge BinEdge.pinf = "inf" from rfl, String.append_assoc]
    rfl
  · rw [categorize_val, h15]
    rfl
  · rw [categorize_val, h25]
    rfl

/-- Witness for C5, instantiated at thresholds `[10, 20]` and value `15`. -/
theorem categorize_col_assigns_unique_bins_witness :
    categorize_val [10, 20] 15 = some "10-20" :=
  (categorize_col_assigns_unique_bins [10, 20]
    (by simp [List.chain'_cons, List.chain'_singleton]) 15).2.2.2.2.1

/-! ## `transformacao.analyze_thresholds` (claims C6, C7, C10)

```python
kmeans = KMeans(n_clusters=n_clusters, random_state=0)
df['Group'] = kmeans.fit_predict(df[[numeric_col]])
thresholds = kmeans.cluster_centers_.flatten()
thresholds.sort()
survival_rates = df.groupby('Group')[target_col].mean().reset_index()
...plotting and printing...
return thresholds, survival_rates
```

The K-means primitive is non-deterministic library code (seeded internal
initialization); it is modelled as an opaque input `KMeansOut` constrained,
where a claim needs it, by the K-means fixed-point contract `IsKMeansOutput`
that any successful `fit_predict` satisfies.
-/

/-- The output of the opaque clustering primitive:
`fit(values, k) → (centers, assignments)`. -/
structure KMeansOut where
  centers : List ℚ
  labels : List ℕ

/-- pandas `groupby('Group')[target].mean()` for one group: the mean of the
target values over the rows of that group, NaN entries skipped, NaN when no
value remains. -/
def groupMean (labels : List ℕ) (tvals : List QVal) (g : ℕ) : Option ℚ :=
  let vals := seriesVals (((labels.zip tvals).filter (fun p => p.1 == g)).map Prod.snd)
  if vals.length = 0 then none else some (vals.sum / (vals.length : ℚ))

/-- `transformacao.analyze_thresholds`, transcribed from the source with the
clustering output passed in: assigns the `'Group'` column on the input
dataframe, sorts the flattened cluster centers in place, and computes the
per-group mean of the target column (pandas `groupby` sorts group keys).
Returns the mutated dataframe (state-passing embedding of the side effect)
with the thresholds and the per-group means. -/
def analyze_thresholds (df : Df) (numeric_col target_col : String) (km : KMeansOut) :
    Df × List ℚ × List (ℕ × Option ℚ) :=
  let df' := setCol df "Group" (km.labels.map (fun g => some ((g : ℚ))))
  let thresholds := (km.centers).insertionSort (· ≤ ·)
  let groups := (km.labels.dedup).insertionSort (· ≤ ·)
  let tvals := (lookupCol df' target_col).getD []
  let survival_rates := groups.map (fun g => (g, groupMean km.labels tvals g))
  (df', thresholds, survival_rates)

/-- The K-means fixed-point contract satisfied by any successful
`fit_predict(values, k)`: `k` centers, one label per row, labels in range,
every cluster non-empty with its center the mean of its members, and every
point assigned to a nearest center. -/
def IsKMeansOutput (vals : List ℚ) (k : ℕ) (km : KMeansOut) : Prop :=
  km.centers.length = k
  ∧ km.labels.length = vals.length
  ∧ (∀ g ∈ km.labels, g < k)
  ∧ (∀ g < k, ∃ q, km.centers.get? g = some q
      ∧ groupMean km.labels (vals.map some) g = some q)
  ∧ ∀ p ∈ km.labels.zip vals, ∀ g' < k,
      |p.2 - km.centers.getD p.1 0| ≤ |p.2 - km.centers.getD g' 0|

/-- C6: the thresholds returned by `analyze_thresholds` are sorted ascending
and number exactly the requested cluster count (the clustering primitive's
contract supplies one center per requested cluster). -/
theorem analyze_thresholds_sorted_count (df : Df) (ncol tcol : String) (km : KMeansOut)
    (k : ℕ) (hk : km.centers.length = k) :
    ((analyze_thresholds df ncol tcol km).2.1).Sorted (· ≤ ·)
    ∧ (analyze_thresholds df ncol tcol km).2.1.length = k := by
  constructor
  · exact List.sorted_insertionSort _ _
  · rw [show (analyze_thresholds df ncol tcol km).2.1
        = km.centers.insertionSort (· ≤ ·) from rfl,
      (List.perm_insertionSort _ _).length_eq, hk]

/-- Witness for C6 at a concrete clustering output with `k = 2`. -/
theorem analyze_thresholds_sorted_count_witness :
    ((analyze_thresholds [] "Age" "Survived" ⟨[2, 1], [0]⟩).2.1).Sorted (· ≤ ·)
    ∧ (analyze_thresholds [] "Age" "Survived" ⟨[2, 1], [0]⟩).2.1.length = 2 :=
  analyze_thresholds_sorted_count [] "Age" "Survived" ⟨[2, 1], [0]⟩ 2 rfl

/-- Column assignment reads back the assigned values. -/
lemma lookupCol_setCol_self (df : Df) (c : String) (vs : List QVal) :
    lookupCol (setCol df c vs) c = some vs := by
  induction df with
  | nil => simp [setCol, lookupCol]
  | cons p rest ih =>
      by_cases h : p.1 = c
      · simp [setCol, lookupCol, h]
      · simp only [setCol, if_neg (by simpa using h)]
        simpa [lookupCol, List.find?, h] using ih

/-- Column assignment leaves every other column unchanged. -/
lemma lookupCol_setCol_ne (df : Df) (c c' : String) (vs : List QVal) (h : c' ≠ c) :
    lookupCol (setCol df c vs) c' = lookupCol df c' := by
  have hcc' : c ≠ c' := fun he => h he.symm
  induction df with
  | nil => simp [setCol, lookupCol, List.find?, beq_eq_false_iff_ne.mpr hcc']
  | cons p rest ih =>
      by_cases hpc : p.1 = c
      · have hpc' : p.1 ≠ c' := fun he => hcc' (hpc.symm.trans he)
        simp [setCol, lookupCol, List.find?, beq_iff_eq.mpr hpc,
          beq_eq_false_iff_ne.mpr hcc', beq_eq_false_iff_ne.mpr hpc']
      · by_cases hpc' : p.1 = c'
        · simp [setCol, lookupCol, List.find?, beq_eq_false_iff_ne.mpr hpc,
            beq_iff_eq.mpr hpc']
        · have ih' := ih
          simp only [lookupCol] at ih'
          simp [setCol, lookupCol, List.find?, beq_eq_false_iff_ne.mpr hpc,
            beq_eq_false_iff_ne.mpr hpc', ih']

/-- C7 (amended): the only dataframe mutation of `analyze_thresholds` is the
assignment of the `'Group'` column (created when absent, overwritten when
present); every other column is unchanged; and `count_outliers` performs no
mutation at all. -/
theorem analyze_thresholds_frame (df : Df) (ncol tcol : String) (km : KMeansOut) :
    (∀ c, c ≠ "Group" →
        lookupCol (analyze_thresholds df ncol tcol km).1 c = lookupCol df c)
    ∧ lookupCol (analyze_thresholds df ncol tcol km).1 "Group"
        = some (km.labels.map (fun g => some ((g : ℚ))))
    ∧ (∀ (df₀ : Df) (col : String), count_outliers_effect df₀ col = df₀) :=
  ⟨fun c hc => lookupCol_setCol_ne df "Group" c _ hc,
   lookupCol_setCol_self df "Group" _,
   fun _ _ => rfl⟩

/-- Witness for C7 (amended) on a concrete dataframe. -/
theorem analyze_thresholds_frame_witness :
    lookupCol (analyze_thresholds [("Age", [some 1])] "Age" "Age" ⟨[1], [0]⟩).1 "Age"
      = lookupCol [("Age", [some 1])] "Age" :=
  (analyze_thresholds_frame [("Age", [some 1])] "Age" "Age" ⟨[1], [0]⟩).1 "Age" (by decide)

/-- C7 counterexample: on a dataframe that already has a `'Group'` column,
`analyze_thresholds` overwrites it — the pre-existing column is not
preserved, so the mutation is not limited to adding a new column. -/
theorem analyze_thresholds_overwrites_group :
    lookupCol [("Group", [some 5]), ("Age", [some 1])] "Group" = some [some 5]
    ∧ lookupCol ((analyze_thresholds [("Group", [some 5]), ("Age", [some 1])]
        "Age" "Age" ⟨[1], [0]⟩).1) "Group" = some [some 0]
    ∧ some [some (0:ℚ)] ≠ some [some (5:ℚ)] := by
  refine ⟨rfl, ?_, by norm_num⟩
  show lookupCol (setCol [("Group", [some 5]), ("Age", [some 1])] "Group" [some ((0:ℕ) : ℚ)])
      "Group" = some [some 0]
  rw [lookupCol_setCol_self]
  norm_num

/-- C10: there is a dataset, a cluster count `k = 2`, and a clustering output
satisfying the K-means contract, on which the `i`-th sorted threshold
returned by `analyze_thresholds` is not the center of the cluster with group
index `i` (as keyed in the per-group means and the assigned `'Group'`
column): the in-place sort of the centers breaks the index correspondence. -/
theorem analyze_thresholds_rank_group_mismatch :
    ∃ (df : Df) (ncol tcol : String) (km : KMeansOut) (k : ℕ) (vals : List ℚ),
      2 ≤ k
      ∧ lookupCol df ncol = some (vals.map some)
      ∧ IsKMeansOutput vals k km
      ∧ (analyze_thresholds df ncol tcol km).2.1 = [0, 10]
      ∧ (analyze_thresholds df ncol tcol km).2.2 = [(0, some 0), (1, some 1)]
      ∧ lookupCol (analyze_thresholds df ncol tcol km).1 "Group" = some [some 1, some 0]
      ∧ ∃ i < k, ((analyze_thresholds df ncol tcol km).2.1).get? i ≠ km.centers.get? i := by
  refine ⟨[("Age", [some 0, some 10]), ("Survived", [some 1, some 0])], "Age", "Survived",
    ⟨[10, 0], [1, 0]⟩, 2, [0, 10], le_refl 2, rfl, ?_, ?_, ?_, ?_, ?_⟩
  · refine ⟨rfl, rfl, ?_, ?_, ?_⟩
    · intro g hg
      simp only [List.mem_cons, List.not_mem_nil, or_false] at hg
      rcases hg with rfl | rfl <;> norm_num
    · intro g hg
      interval_cases g
      · exact ⟨10, rfl, by norm_num [groupMean, seriesVals, List.zip, List.filterMap,
          List.sum_cons, List.sum_nil]⟩
      · exact ⟨0, rfl, by norm_num [groupMean, seriesVals, List.zip, List.filterMap,
          List.sum_cons, List.sum_nil]⟩
    · intro p hp g' hg'
      simp only [List.zip, List.zipWith, List.mem_cons, List.not_mem_nil, or_false] at hp
      interval_cases g' <;> rcases hp with rfl | rfl <;> norm_num
  · have hx : (analyze_thresholds [("Age", [some 0, some 10]),
        ("Survived", [some 1, some 0])] "Age" "Survived" ⟨[10, 0], [1, 0]⟩).2.1
        = List.insertionSort (· ≤ ·) [10, 0] := rfl
    rw [hx]
    norm_num [List.insertionSort, List.orderedInsert]
  · have hg0 : groupMean [1, 0] [some 1, some 0] 0 = some 0 := by
      norm_num [groupMean, seriesVals, List.zip, List.filterMap, List.sum_cons, List.sum_nil]
    have hg1 : groupMean [1, 0] [some 1, some 0] 1 = some 1 := by
      norm_num [groupMean, seriesVals, List.zip, List.filterMap, List.sum_cons, List.sum_nil]
    have hx : (analyze_thresholds [("Age", [some 0, some 10]),
        ("Survived", [some 1, some 0])] "Age" "Survived" ⟨[10, 0], [1, 0]⟩).2.2
        = ((([1, 0] : List ℕ).dedup).insertionSort (· ≤ ·)).map
            (fun g => (g, groupMean [1, 0]
              ((lookupCol (setCol [("Age", [some 0, some 10]), ("Survived", [some 1, some 0])]
                "Group" ([1, 0].map (fun g => some ((g : ℚ))))) "Survived").getD []) g)) := rfl
    rw [hx]
    have hlk : lookupCol (setCol [("Age", [some 0, some 10]), ("Survived", [some 1, some 0])]
        "Group" ([1, 0].map (fun g => some ((g : ℚ))))) "Survived" = some [some 1, some 0] := by
      rw [lookupCol_setCol_ne _ _ _ _ (by decide)]
      rfl
    rw [hlk]
    have hdedup : (([1, 0] : List ℕ).dedup).insertionSort (· ≤ ·) = [0, 1] := by decide
    rw [hdedup]
    simp [hg0, hg1]
  · have hx : (analyze_thresholds [("Age", [some 0, some 10]),
        ("Survived", [some 1, some 0])] "Age" "Survived" ⟨[10, 0], [1, 0]⟩).1
        = setCol [("Age", [some 0, some 10]), ("Survived", [some 1, some 0])]
            "Group" ([1, 0].map (fun g => some ((g : ℚ)))) := rfl
    rw [hx, lookupCol_setCol_self]
    norm_num
  · refine ⟨0, by norm_num, ?_⟩
    have hthr : (analyze_thresholds [("Age", [some 0, some 10]),
        ("Survived", [some 1, some 0])] "Age" "Survived" ⟨[10, 0], [1, 0]⟩).2.1 = [0, 10] := by
      have hx : (analyze_thresholds [("Age", [some 0, some 10]),
          ("Survived", [some 1, some 0])] "Age" "Survived" ⟨[10, 0], [1, 0]⟩).2.1
          = List.insertionSort (· ≤ ·) [10, 0] := rfl
      rw [hx]
      norm_num [List.insertionSort, List.orderedInsert]
    rw [hthr]
    norm_num

/-! ## `statistical.correlation_analysis` (claims C3, C9)

```python
results = {}
pearson_corr, pearson_p_value = stats.pearsonr(df[var1], df[var2])
... results['Pearson Test'] from pearson_p_value < alpha ...
spearman_corr, spearman_p_value = stats.spearmanr(df[var1], df[var2])
... results['Spearman Test'] from spearman_p_value < alpha ...
return results
```
-/

/-- NaN-propagating subtraction. -/
def oSub (a b : Option ℚ) : Option ℚ := a.bind (fun x => b.map (fun y => x - y))

/-- NaN-propagating multiplication. -/
def oMul (a b : Option ℚ) : Option ℚ := a.bind (fun x => b.map (fun y => x * y))

/-- NaN-propagating mean (`np.mean`; NaN on an empty array). -/
def omean (xs : List QVal) : Option ℚ :=
  if xs.length = 0 then none
  else (osum xs).map (fun s => s / (xs.length : ℚ))

/-- A non-NaN Pearson-type coefficient, recorded in the exact form
`num / sqrt den2` with `den2 = Σdx² * Σdy²` (the square root is irrational
in general, so the coefficient is identified by this defining pair). -/
structure CorrVal where
  num : ℚ
  den2 : ℚ
  deriving DecidableEq, Repr

/-- The generic Pearson computation `r = Σdxdy / sqrt(Σdx² Σdy²)` over
possibly-NaN columns: NaN (`none`) when any input is NaN or a column is
constant (zero denominator — scipy's ConstantInput path returns NaN). -/
def pearsonCore (xs ys : List QVal) : Option CorrVal :=
  let mx := omean xs
  let my := omean ys
  let dx := xs.map (fun x => oSub x mx)
  let dy := ys.map (fun y => oSub y my)
  (osum (List.zipWith oMul dx dy)).bind (fun sxy =>
    (osum (dx.map (fun d => oMul d d))).bind (fun sxx =>
      (osum (dy.map (fun d => oMul d d))).bind (fun syy =>
        if sxx * syy = 0 then none else some ⟨sxy, sxx * syy⟩)))

/-- NaN-propagating sign (`np.sign`). -/
def osign (a : Option ℚ) : Option ℚ :=
  a.map (fun x => if 0 < x then 1 else if x < 0 then -1 else 0)

/-- scipy `pearsonr`'s coefficient: raises `ValueError` for columns of
different lengths or fewer than 2 observations; returns exactly
`sign(y1-y0)*sign(x1-x0)` for `n = 2`; otherwise the generic formula.
NaN inputs propagate into a NaN result — there is no pairwise deletion. -/
def pearsonr (xs ys : List QVal) : Except PyErr (Option CorrVal) :=
  if xs.length ≠ ys.length then .error .valueError
  else if xs.length < 2 then .error .valueError
  else if xs.length = 2 then
    .ok ((oMul (osign (oSub (ys.getD 1 none) (ys.getD 0 none)))
          (osign (oSub (xs.getD 1 none) (xs.getD 0 none)))).map (fun s => ⟨s, 1⟩))
  else .ok (pearsonCore xs ys)

/-- scipy 1-based average rank of `x` within `xs` (`rankdata`). -/
def avgRank (xs : List ℚ) (x : ℚ) : ℚ :=
  ((xs.filter (fun y => y < x)).length : ℚ)
  + (((xs.filter (fun y => y = x)).length : ℚ) + 1) / 2

/-- scipy `spearmanr`'s coefficient with the default
`nan_policy='propagate'`: NaN whenever any input is NaN, otherwise the
Pearson formula on the average ranks (NaN when a rank vector is constant). -/
def spearmanCore (xs ys : List QVal) : Option CorrVal :=
  if none ∈ xs ∨ none ∈ ys then none
  else
    pearsonCore ((seriesVals xs).map (fun x => some (avgRank (seriesVals xs) x)))
                ((seriesVals ys).map (fun y => some (avgRank (seriesVals ys) y)))

/-- Both two-tailed p-values are fixed real-valued functions of the
coefficient and the sample size, NaN exactly when the coefficient is NaN;
each is recorded by that determining pair. -/
def pvalOf (r : Option CorrVal) (n : ℕ) : Option (CorrVal × ℕ) :=
  r.map (fun c => (c, n))

/-- The classification branch `if p_value < alpha`. On floats a NaN p-value
compares `False`, landing in the "do not reject" message; a defined p-value
yields the verdict `[p-value < alpha]`, which the embedding records
symbolically rather than evaluating the distribution function. -/
inductive TestVerdict where
  | notRejectedNaN
  | thresholded (p : CorrVal × ℕ) (alpha : ℚ)
  deriving DecidableEq

/-- Evaluation of the classification branch. -/
def verdictOf (p : Option (CorrVal × ℕ)) (alpha : ℚ) : TestVerdict :=
  match p with
  | none => .notRejectedNaN
  | some pd => .thresholded pd alpha

/-- The `results` dictionary of `correlation_analysis`: all six entries are
always present on success. -/
structure CorrResults where
  pearson_corr : Option CorrVal
  pearson_p : Option (CorrVal × ℕ)
  pearson_test : TestVerdict
  spearman_corr : Option CorrVal
  spearman_p : Option (CorrVal × ℕ)
  spearman_test : TestVerdict
  deriving DecidableEq

/-- `statistical.correlation_analysis(df, var1, var2, alpha)`, transcribed
from the source: `df[var1]`/`df[var2]` raise `KeyError` when absent (argument
evaluation order), `stats.pearsonr` raises for length mismatch or `n < 2`,
and the full columns are passed to both tests — no row is excluded. -/
def correlation_analysis (df : Df) (var1 var2 : String) (alpha : ℚ) :
    Except PyErr CorrResults :=
  match lookupCol df var1 with
  | none => .error .keyError
  | some xs =>
    match lookupCol df var2 with
    | none => .error .keyError
    | some ys =>
      (pearsonr xs ys).map (fun pc =>
        let pp := pvalOf pc xs.length
        let sc := spearmanCore xs ys
        let sp := pvalOf sc xs.length
        { pearson_corr := pc, pearson_p := pp, pearson_test := verdictOf pp alpha
          spearman_corr := sc, spearman_p := sp, spearman_test := verdictOf sp alpha })

/-- Follows the spec's words for C3: rows with a missing value in either
column are excluded pairwise. -/
def pairwiseRows (xs ys : List QVal) : List (ℚ × ℚ) :=
  (xs.zip ys).filterMap (fun p => p.1.bind (fun a => p.2.map (fun b => (a, b))))

/-- Follows the spec's words for C3: the Pearson coefficient computed after
pairwise exclusion of incomplete rows. -/
def specPairwisePearson (xs ys : List QVal) : Option CorrVal :=
  pearsonCore ((pairwiseRows xs ys).map (fun p => some p.1))
              ((pairwiseRows xs ys).map (fun p => some p.2))

/-! ### NaN propagation facts -/

lemma osum_none_of_mem {l : List QVal} (h : none ∈ l) : osum l = none := by
  induction l with
  | nil => cases h
  | cons a t ih =>
      rcases List.mem_cons.mp h with ha | ht
      · cases ha; simp [osum]
      · cases a <;> simp [osum, ih ht]

lemma omean_none_of_mem {xs : List QVal} (h : none ∈ xs) : omean xs = none := by
  have hne : xs.length ≠ 0 := by
    cases xs
    · cases h
    · simp
  simp [omean, hne, osum_none_of_mem h]

lemma oSub_none_right (a : Option ℚ) : oSub a none = none := by cases a <;> simp [oSub]

lemma oMul_none_left (b : Option ℚ) : oMul none b = none := by simp [oMul]

lemma oMul_none_right (a : Option ℚ) : oMul a none = none := by cases a <;> simp [oMul]

/-- A NaN anywhere in either column makes the generic Pearson computation
NaN: nothing is excluded. -/
lemma pearsonCore_none (xs ys : List QVal) (hx : xs ≠ []) (hy : ys ≠ [])
    (h : none ∈ xs ∨ none ∈ ys) : pearsonCore xs ys = none := by
  obtain ⟨x, xs', rfl⟩ := List.exists_cons_of_ne_nil hx
  obtain ⟨y, ys', rfl⟩ := List.exists_cons_of_ne_nil hy
  rcases h with hm | hm
  · have hmean : omean (x :: xs') = none := omean_none_of_mem hm
    simp [pearsonCore, hmean, oSub_none_right, oMul_none_left, osum]
  · have hmean : omean (y :: ys') = none := omean_none_of_mem hm
    simp [pearsonCore, hmean, oSub_none_right, oMul_none_right, oMul_none_left, osum]

/-- A NaN in a 2-observation column makes the `n = 2` special case NaN. -/
lemma pearson_two_none (xs ys : List QVal) (hx2 : xs.length = 2) (hy2 : ys.length = 2)
    (h : none ∈ xs ∨ none ∈ ys) :
    (oMul (osign (oSub (ys.getD 1 none) (ys.getD 0 none)))
      (osign (oSub (xs.getD 1 none) (xs.getD 0 none)))).map
        (fun s => (⟨s, 1⟩ : CorrVal)) = none := by
  obtain ⟨a, b, rfl⟩ := List.length_eq_two.mp hx2
  obtain ⟨c, d, rfl⟩ := List.length_eq_two.mp hy2
  rcases h with hm | hm <;> simp only [List.mem_cons, List.not_mem_nil, or_false] at hm <;>
    rcases hm with hm | hm <;> cases hm <;>
    simp [oSub, osign, oMul, oMul_none_right, oSub_none_right]

/-- C3 (amended): `correlation_analysis` raises exactly when a column is
absent (`KeyError`) or the columns' lengths mismatch or are below 2
(`ValueError` from `pearsonr`); on success it returns the complete
six-entry record, but rows with missing values are NOT excluded pairwise:
any NaN in either column propagates into NaN coefficients and p-values, and
both classification branches then read "do not reject". -/
theorem correlation_analysis_amended (df : Df) (v1 v2 : String) (α : ℚ) :
    (lookupCol df v1 = none → correlation_analysis df v1 v2 α = .error .keyError)
    ∧ (∀ xs, lookupCol df v1 = some xs → lookupCol df v2 = none →
        correlation_analysis df v1 v2 α = .error .keyError)
    ∧ ∀ xs ys, lookupCol df v1 = some xs → lookupCol df v2 = some ys →
        ((∃ e, correlation_analysis df v1 v2 α = .error e)
            ↔ (xs.length ≠ ys.length ∨ xs.length < 2))
        ∧ ∀ res, correlation_analysis df v1 v2 α = .ok res →
            (none ∈ xs ∨ none ∈ ys) →
            res.pearson_corr = none ∧ res.pearson_p = none
            ∧ res.pearson_test = .notRejectedNaN
            ∧ res.spearman_corr = none ∧ res.spearman_p = none
            ∧ res.spearman_test = .notRejectedNaN := by
  refine ⟨fun h1 => by simp [correlation_analysis, h1], ?_, ?_⟩
  · intro xs h1 h2
    simp [correlation_analysis, h1, h2]
  · intro xs ys h1 h2
    have hsc : ∀ hmem : none ∈ xs ∨ none ∈ ys, spearmanCore xs ys = none := fun hmem => by
      rw [spearmanCore, if_pos hmem]
    constructor
    · by_cases hne : xs.length ≠ ys.length
      · simp [correlation_analysis, h1, h2, pearsonr, hne, Except.map]
      · by_cases hlt : xs.length < 2
        · simp [correlation_analysis, h1, h2, pearsonr, hne, hlt, Except.map]
        · by_cases h2l : xs.length = 2
          · have hy2 : ys.length = 2 := (not_ne_iff.mp hne) ▸ h2l
            simp [correlation_analysis, h1, h2, pearsonr, hne, hlt, h2l, hy2, Except.map]
          · simp [correlation_analysis, h1, h2, pearsonr, hne, hlt, h2l, Except.map]
    · intro res hres hmem
      by_cases hne : xs.length ≠ ys.length
      · simp [correlation_analysis, h1, h2, pearsonr, hne, Except.map] at hres
      · by_cases hlt : xs.length < 2
        · simp [correlation_analysis, h1, h2, pearsonr, hne, hlt, Except.map] at hres
        · by_cases h2l : xs.length = 2
          · have hy2 : ys.length = 2 := (not_ne_iff.mp hne) ▸ h2l
            have hpc := pearson_two_none xs ys h2l hy2 hmem
            simp only [correlation_analysis, h1, h2, pearsonr, if_neg hne, if_neg hlt,
              if_pos h2l, Except.map, hpc] at hres
            cases hres.symm
            simp [pvalOf, verdictOf, hpc, hsc hmem]
          · have hxne : xs ≠ [] := by
              intro hnil
              rw [hnil] at hlt
              simp at hlt
            have hyne : ys ≠ [] := by
              intro hnil
              rw [hnil] at hne
              apply hne
              intro hk
              rw [hk] at hlt
              simp at hlt
            have hpc := pearsonCore_none xs ys hxne hyne hmem
            simp only [correlation_analysis, h1, h2, pearsonr, if_neg hne, if_neg hlt,
              if_neg h2l, Except.map, hpc] at hres
            cases hres.symm
            simp [pvalOf, verdictOf, hpc, hsc hmem]

/-- C3 counterexample: with `x = [1, 2, NaN]` and `y = [1, 2, 5]` there are
2 valid pairs, so pairwise exclusion would yield a defined Pearson
coefficient (here exactly `(1/2)/sqrt(1/4) = 1`); the code instead returns
the complete record with NaN coefficients — rows are not excluded, and the
function does not fail on fewer than 2 *valid* pairs. -/
theorem correlation_analysis_no_pairwise_deletion :
    (pairwiseRows [some 1, some 2, none] [some 1, some 2, some 5]).length = 2
    ∧ specPairwisePearson [some 1, some 2, none] [some 1, some 2, some 5]
        = some ⟨1/2, 1/4⟩
    ∧ ∃ res, correlation_analysis [("x", [some 1, some 2, none]),
          ("y", [some 1, some 2, some 5])] "x" "y" (1/20) = .ok res
        ∧ res.pearson_corr = none ∧ res.spearman_corr = none
        ∧ res.pearson_corr
            ≠ specPairwisePearson [some 1, some 2, none] [some 1, some 2, some 5] := by
  have hspec : specPairwisePearson [some 1, some 2, none] [some 1, some 2, some 5]
      = some ⟨1/2, 1/4⟩ := by
    norm_num [specPairwisePearson, pairwiseRows, pearsonCore, omean, osum, oSub, oMul,
      List.zipWith, List.zip, List.filterMap, CorrVal.mk.injEq]
  have hpc : pearsonCore [some 1, some 2, none] [some 1, some 2, some 5] = none :=
    pearsonCore_none _ _ (by simp) (by simp) (Or.inl (by simp))
  refine ⟨rfl, hspec,
    ⟨{ pearson_corr := none, pearson_p := none, pearson_test := .notRejectedNaN,
       spearman_corr := none, spearman_p := none, spearman_test := .notRejectedNaN },
     ?_, rfl, rfl, by rw [hspec]; simp⟩⟩
  have hsc : spearmanCore [some 1, some 2, none] [some 1, some 2, some 5] = none := by
    rw [spearmanCore, if_pos (Or.inl (by simp))]
  simp [correlation_analysis, lookupCol, List.find?, pearsonr, hpc, hsc, pvalOf,
    verdictOf, Except.map]

/-- Witness for C3 (amended): an absent column raises the key error. -/
theorem correlation_analysis_amended_witness :
    correlation_analysis [] "x" "y" (1/20) = .error .keyError :=
  (correlation_analysis_amended [] "x" "y" (1/20)).1 rfl

/-! ## The duplicate `correlation_analysis` of `inferencia.py` (claim C9) -/

/-- The module-level names bound by the import statements of
`inferencia.py`: `import pandas as pd`, `from sklearn.preprocessing import
LabelEncoder`, `from sklearn.feature_selection import chi2` — and nothing
else; in particular `stats` is never bound. -/
def inferencia_globals : List String := ["pd", "LabelEncoder", "chi2"]

/-- The copy of `correlation_analysis` defined in `inferencia.py`. Its first
statistical step loads the global `stats` (CPython resolves
`stats.pearsonr` before evaluating any argument, so before any column
access); if the name resolved, the body is identical to `statistical.py`'s
copy, otherwise the call raises `NameError`. -/
def inferencia_correlation_analysis (df : Df) (var1 var2 : String) (alpha : ℚ) :
    Except PyErr CorrResults :=
  if "stats" ∈ inferencia_globals then correlation_analysis df var1 var2 alpha
  else .error .nameError

/-- C9: on every input, `inferencia.correlation_analysis` raises a
name-resolution error before computing any statistic — the module never
imports `stats` — so this duplicate never returns the documented result
record. -/
theorem inferencia_correlation_analysis_raises (df : Df) (v1 v2 : String) (α : ℚ) :
    inferencia_correlation_analysis df v1 v2 α = .error .nameError := by
  rw [inferencia_correlation_analysis, if_neg (by decide)]

end Titanic
